import Mathlib

/-!
Built-in types publisher / subscriber: a verification development

Shallow embedding of `src/c++/publisher.cxx` and `src/c++/subscriber.cxx`.

* `std::string` is a `List Char`; `std::vector<string>` and `std::deque<uint8_t>`
  are lists (bytes are natural numbers, reduced modulo 256 where the source casts).
* `unsigned int` counters are natural numbers with every increment reduced
  modulo `2 ^ 32`.
* `std::cout` is the list of characters written so far.
* The fortunes file is `none` when `file.is_open()` is false and `some content`
  otherwise; `std::getline` is modelled by `getlines`.
* The middleware is an environment: what `reader.take()` returns is the batch
  handed to a handler, what `waitset.dispatch` runs is a list of handler
  invocations, `std::rand()` and `application::shutdown_requested` are read
  from functions of the loop iteration.
-/

namespace BuiltinTypes

/-! ## Publisher: the fortune store -/

/-- Model of `std::string`. -/
abbrev string := List Char

/-- Model of `stringvector_t = std::vector<string>`. -/
abbrev stringvector_t := List string

/-- Model of `static const char endl`, the character written at the end of
every output statement. -/
def endl : Char := '\n'

/-- The delimiter line compared against in `populate_fortunes`. -/
def percent : string := "%".toList

/-- Initial value of the static `fortunes` vector (publisher.cxx, lines 46-47). -/
def fortunes : stringvector_t :=
  ["In the land of the blind, the one eyed man is king".toList,
   "Now is the time for all good men to come to the aid of the party".toList]

/-- The lines that successive calls `std::getline(file, line)` return before
the call fails. `line` is the text extracted so far by the current call: a
newline ends the call (the newline is consumed, not stored); at end of file
the call succeeds if it extracted at least one character and fails
otherwise. -/
def getlines_from : List Char → string → List string
  | [], line => if line.isEmpty then [] else [line]
  | c :: rest, line =>
    if c = '\n' then line :: getlines_from rest [] else getlines_from rest (line ++ [c])

/-- All lines of a file content, in order. -/
def getlines (content : List Char) : List string := getlines_from content []

/-- The variables the loop of `populate_fortunes` updates: the vector
`fortunes` and the text held by the `ostringstream ss`. -/
structure populate_state where
  fortunes : stringvector_t
  ss : string
deriving DecidableEq, Repr

/-- Body of the `while (std::getline(file, line))` loop (publisher.cxx, lines 57-65). -/
def populate_line (st : populate_state) (line : string) : populate_state :=
  if line = percent then
    { fortunes := st.fortunes ++ [st.ss], ss := [] }
  else
    let ss1 := if !st.ss.isEmpty then st.ss ++ ['\n'] else st.ss
    { fortunes := st.fortunes, ss := ss1 ++ line }

/-- The `while (std::getline(file, line))` loop, run over the lines that
`getline` returns. -/
def populate_loop (lines : List string) (st : populate_state) : populate_state :=
  lines.foldl populate_line st

/-- Model of `populate_fortunes`: `file` is `none` when the file cannot be
opened, `fortunes0` is the value of the static vector on entry; the result is
its value on return. -/
def populate_fortunes (file : Option (List Char)) (fortunes0 : stringvector_t) :
    stringvector_t :=
  match file with
  | none => fortunes0
  | some content => (populate_loop (getlines content) { fortunes := fortunes0, ss := [] }).fortunes

/-- The store after `populate_fortunes` has run, from the program's initial
state, on an open file whose lines are `lines`. -/
def loaded (lines : List string) : stringvector_t :=
  (populate_loop lines { fortunes := fortunes, ss := [] }).fortunes

/-- Spec-level reading of "the file's '%'-terminated blocks in file order":
the runs of lines between delimiter lines, without the run after the last
delimiter. -/
def spec_blocks (lines : List string) : List (List string) :=
  (lines.splitOn percent).dropLast

/-- Spec-level reading of "lines joined with newline separators":
`l1 ++ "\n" ++ l2 ++ ... ++ "\n" ++ lm`. -/
def spec_join (block : List string) : string :=
  ['\n'].intercalate block

/-- Text the code stores for a block: the join of its lines once the leading
empty lines are skipped. -/
def block_text (block : List string) : string :=
  spec_join (block.dropWhile (fun l => l.isEmpty))

/-- Contents of `ss` after the loop body has run on the lines `block` (none of
which is the delimiter), starting from `ss`. -/
def ss_after (ss : string) (block : List string) : string :=
  block.foldl (fun acc line => (if !acc.isEmpty then acc ++ ['\n'] else acc) ++ line) ss

/-- Index used by `fortunes[std::rand() % fortunes.size()]`. -/
def pick_index (r : Nat) (store : stringvector_t) : Nat := r % store.length

/-! ## Publisher: the byte frame and the main loop -/

/-- Model of `bytedeque_t = std::deque<uint8_t>`; every entry is a byte value. -/
abbrev bytedeque_t := List Nat

/-- Frame built by
`for (int i = 0; i < 256; ++i) my_data.push_back(static_cast<uint8_t>(i))`. -/
def initial_data : bytedeque_t := (List.range 256).map (fun i => i % 256)

/-- The rotation step `my_data.push_back(my_data.front()); my_data.pop_front();`
(`front()` of an empty deque is undefined; the empty case is never reached
because the frame always has 256 entries). -/
def shuffle (my_data : bytedeque_t) : bytedeque_t :=
  match my_data with
  | [] => []
  | front :: rest => ((front :: rest) ++ [front]).tail

/-- Model of `std::copy(src.begin(), src.end(), dst.begin())`: the first
`src.size()` entries of `dst` are overwritten. -/
def copy (src dst : List Nat) : List Nat := src ++ dst.drop src.length

/-- One call of `DataWriter::write`, on the string writer or on the bytes
writer. -/
inductive written_sample where
  | string_sample (data : string)
  | bytes_sample (data : List Nat)
deriving DecidableEq, Repr

/-- Variables of `run_publisher_application` that the main loop updates;
`writes` records the samples handed to the two writers, in order, and
`iteration` is the number of iterations completed so far. -/
structure publisher_state where
  samples_written : Nat
  my_data : bytedeque_t
  wire_data : List Nat
  writes : List written_sample
  iteration : Nat
deriving DecidableEq, Repr

/-- Main loop of `run_publisher_application` (publisher.cxx, lines 106-120).
`shutdown_requested t` is the flag read at the `t`-th test of the loop
condition and `rand t` the value `std::rand()` returns in iteration `t`;
`store` is the vector `fortunes`. `store.getD i []` stands for `fortunes[i]`,
whose index is always in range. `sample_count` is an `unsigned int`, and
`++samples_written` is reduced modulo `2 ^ 32`. The pacing sleep has no effect
on the state. -/
def publisher_loop (shutdown_requested : Nat → Bool) (rand : Nat → Nat) (store : stringvector_t)
    (sample_count : Nat) (hsc : sample_count < 2 ^ 32) (st : publisher_state) : publisher_state :=
  if _h : shutdown_requested st.iteration = false ∧ st.samples_written < sample_count then
    let wire := copy st.my_data st.wire_data
    publisher_loop shutdown_requested rand store sample_count hsc
      { samples_written := (st.samples_written + 1) % 2 ^ 32
        my_data := shuffle st.my_data
        wire_data := wire
        writes := st.writes ++
          [written_sample.string_sample (store.getD (rand st.iteration % store.length) []),
           written_sample.bytes_sample wire]
        iteration := st.iteration + 1 }
  else st
termination_by sample_count - st.samples_written
decreasing_by
  simp_wf
  omega

/-- Model of `run_publisher_application`: `populate_fortunes` runs on the
initial `fortunes`, the frame and the wire buffer are built, and the main loop
runs from `samples_written = 0`. -/
def run_publisher_application (file : Option (List Char)) (shutdown_requested : Nat → Bool)
    (rand : Nat → Nat) (sample_count : Nat) (hsc : sample_count < 2 ^ 32) : publisher_state :=
  publisher_loop shutdown_requested rand (populate_fortunes file fortunes) sample_count hsc
    { samples_written := 0
      my_data := initial_data
      wire_data := List.replicate initial_data.length 0
      writes := []
      iteration := 0 }

/-- What iteration `k` of the main loop hands to the two writers when the
frame has been rotated `k` times. -/
def iteration_writes (rand : Nat → Nat) (store : stringvector_t) (k : Nat) :
    List written_sample :=
  [written_sample.string_sample (store.getD (rand k % store.length) []),
   written_sample.bytes_sample ((List.range 256).map (fun i => (i + k) % 256))]

/-! ## Subscriber: handlers and dispatch loop -/

/-- One element of a `LoanedSamples` batch: `valid data` when
`sample.info().valid()` holds, with `data` the value of `sample.data()`;
`invalid s` otherwise, with `s` the value of
`sample.info().state().instance_state()`. -/
inductive loaned_sample (α σ : Type) where
  | valid (data : α)
  | invalid (instance_state : σ)
deriving DecidableEq, Repr

/-- What the subscriber's handlers update: the counter `samples_read` (bound
to the reference parameter `sample_count`) and the characters written to
`std::cout`. -/
structure subscriber_state where
  samples_read : Nat
  cout : string
deriving DecidableEq, Repr

/-- The increment `++sample_count` on an `unsigned int`. -/
def increment (sample_count : Nat) : Nat := (sample_count + 1) % 2 ^ 32

/-- Body of the loop of `process_string_data` (subscriber.cxx, lines 50-56);
`show_state s` is the text `operator<<` writes for the instance state `s`. -/
def process_string_sample {σ : Type} (show_state : σ → string) (st : subscriber_state)
    (sample : loaned_sample string σ) : subscriber_state :=
  match sample with
  | loaned_sample.valid fortune =>
    { samples_read := increment st.samples_read
      cout := st.cout ++ "SR. Sample data: ".toList ++ fortune ++ [endl] }
  | loaned_sample.invalid s =>
    { samples_read := st.samples_read
      cout := st.cout ++ "SR. Instance state changed to ".toList ++ show_state s ++ [endl] }

/-- Model of `process_string_data`; `samples` is what `reader.take()` returns. -/
def process_string_data {σ : Type} (show_state : σ → string)
    (samples : List (loaned_sample string σ)) (st : subscriber_state) : subscriber_state :=
  samples.foldl (process_string_sample show_state) st

/-- The inner loop of `process_byte_data` (subscriber.cxx, lines 73-77):
`at_begin` tells whether `itor == wire_data.begin()`. -/
def write_bytes (at_begin : Bool) (cout : string) : List Nat → string
  | [] => cout
  | b :: rest =>
    write_bytes false ((if at_begin then cout else cout ++ ", ".toList) ++ Nat.toDigits 10 b) rest

/-- Body of the loop of `process_byte_data` (subscriber.cxx, lines 66-81). -/
def process_byte_sample {σ : Type} (show_state : σ → string) (st : subscriber_state)
    (sample : loaned_sample (List Nat) σ) : subscriber_state :=
  match sample with
  | loaned_sample.valid wire_data =>
    { samples_read := increment st.samples_read
      cout := write_bytes true (st.cout ++ "BR. Sample data: \x7b".toList) wire_data
                ++ ['\x7d'] ++ [endl] }
  | loaned_sample.invalid s =>
    { samples_read := st.samples_read
      cout := st.cout ++ "BR. Instance state changed to ".toList ++ show_state s ++ [endl] }

/-- Model of `process_byte_data`; `samples` is what `reader.take()` returns. -/
def process_byte_data {σ : Type} (show_state : σ → string)
    (samples : List (loaned_sample (List Nat) σ)) (st : subscriber_state) : subscriber_state :=
  samples.foldl (process_byte_sample show_state) st

/-- A handler that `waitset.dispatch` runs, with the batch its reader holds. -/
inductive handler_call (σ : Type) where
  | string_read_cond (samples : List (loaned_sample string σ))
  | bytes_read_cond (samples : List (loaned_sample (List Nat) σ))
deriving DecidableEq, Repr

/-- Runs one handler. -/
def run_handler {σ : Type} (show_state : σ → string) (st : subscriber_state)
    (call : handler_call σ) : subscriber_state :=
  match call with
  | handler_call.string_read_cond samples => process_string_data show_state samples st
  | handler_call.bytes_read_cond samples => process_byte_data show_state samples st

/-- Model of `waitset.dispatch(...)`: the handlers of the active conditions
run one after the other; `calls` is empty when the wait times out. -/
def dispatch {σ : Type} (show_state : σ → string) (calls : List (handler_call σ))
    (st : subscriber_state) : subscriber_state :=
  calls.foldl (run_handler show_state) st

/-- The loop of `run_subscriber_application` (subscriber.cxx, lines 126-130).
`shutdown_requested t` is the flag read at the `t`-th test of the loop
condition and `broker t` what the `t`-th call of `dispatch` runs. The loop need
not terminate, so the model is bounded by `fuel` and returns `none` when the
bound is reached. -/
def subscriber_loop {σ : Type} (show_state : σ → string) (shutdown_requested : Nat → Bool)
    (broker : Nat → List (handler_call σ)) (sample_count : Nat) :
    Nat → Nat → subscriber_state → Option subscriber_state
  | 0, _, _ => none
  | fuel + 1, t, st =>
    if shutdown_requested t = false ∧ st.samples_read < sample_count then
      subscriber_loop show_state shutdown_requested broker sample_count fuel (t + 1)
        (dispatch show_state (broker t) st)
    else some st

/-- Model of `run_subscriber_application` from the initialisation of
`samples_read` on. -/
def run_subscriber_application {σ : Type} (show_state : σ → string)
    (shutdown_requested : Nat → Bool) (broker : Nat → List (handler_call σ))
    (sample_count : Nat) (fuel : Nat) : Option subscriber_state :=
  subscriber_loop show_state shutdown_requested broker sample_count fuel 0
    { samples_read := 0, cout := "Subscriber ready...".toList ++ [endl] }

/-- Number of items of a batch that carry valid data. -/
def valid_count {α σ : Type} (samples : List (loaned_sample α σ)) : Nat :=
  samples.countP (fun s => match s with
    | loaned_sample.valid _ => true
    | loaned_sample.invalid _ => false)

/-- Number of valid items a handler call receives. -/
def call_valid_count {σ : Type} (call : handler_call σ) : Nat :=
  match call with
  | handler_call.string_read_cond samples => valid_count samples
  | handler_call.bytes_read_cond samples => valid_count samples

/-- Number of valid items delivered by the handlers of one dispatch. -/
def dispatch_valid_count {σ : Type} (calls : List (handler_call σ)) : Nat :=
  (calls.map call_valid_count).sum

/-- Text written for one item of the string stream, without the final `endl`. -/
def string_record {σ : Type} (show_state : σ → string) (sample : loaned_sample string σ) :
    string :=
  match sample with
  | loaned_sample.valid fortune => "SR. Sample data: ".toList ++ fortune
  | loaned_sample.invalid s => "SR. Instance state changed to ".toList ++ show_state s

/-- Spec-level reading of "decimal values in source order, comma-separated". -/
def spec_bytes_text (wire_data : List Nat) : string :=
  ", ".toList.intercalate (wire_data.map (Nat.toDigits 10))

/-- Text written for one item of the bytes stream, without the final `endl`. -/
def byte_record {σ : Type} (show_state : σ → string) (sample : loaned_sample (List Nat) σ) :
    string :=
  match sample with
  | loaned_sample.valid wire_data => "BR. Sample data: \x7b".toList ++ spec_bytes_text wire_data ++ ['\x7d']
  | loaned_sample.invalid s => "BR. Instance state changed to ".toList ++ show_state s


/-- Number of line terminators in a piece of output. -/
def lines_written (out : string) : Nat := out.count endl

/-- A broker that has one string sample and one byte frame ready at every
dispatch, as the publisher produces them. -/
def both_streams_ready (_ : Nat) : List (handler_call Unit) :=
  [handler_call.string_read_cond [loaned_sample.valid "A".toList],
   handler_call.bytes_read_cond [loaned_sample.valid [0, 1]]]

/-- A broker that has exactly one string sample ready at every dispatch. -/
def one_string_ready (_ : Nat) : List (handler_call Unit) :=
  [handler_call.string_read_cond [loaned_sample.valid "A".toList]]

/-! ## Lemmas: fortune store -/

theorem intercalate_cons_eq {α : Type} (sep x : List α) (xs : List (List α)) :
    sep.intercalate (x :: xs) = x ++ xs.flatMap (fun y => sep ++ y) := by
  induction xs generalizing x with
  | nil => simp [List.intercalate]
  | cons y ys ih =>
    have h := ih y
    simp only [List.intercalate, List.intersperse, List.flatten_cons] at h ⊢
    simp [h]

theorem getlines_from_line (l rest : List Char) (line : string) (hl : '\n' ∉ l) :
    getlines_from (l ++ '\n' :: rest) line = (line ++ l) :: getlines_from rest [] := by
  induction l generalizing line with
  | nil => simp [getlines_from]
  | cons c cs ih =>
    have hc : c ≠ '\n' := fun h => hl (h ▸ List.mem_cons_self _ _)
    have hcs : '\n' ∉ cs := fun h => hl (List.mem_cons_of_mem _ h)
    simp [getlines_from, hc, ih _ hcs]

/-- Every list of newline-free lines is the `getline` sequence of a file: the
one that writes each line followed by a newline. -/
theorem getlines_unlines (lines : List string) (h : ∀ l ∈ lines, '\n' ∉ l) :
    getlines (lines.flatMap (fun l => l ++ ['\n'])) = lines := by
  induction lines with
  | nil => rfl
  | cons l ls ih =>
    have h1 := getlines_from_line l (ls.flatMap (fun l => l ++ ['\n'])) []
      (h l (List.mem_cons_self _ _))
    have h2 := ih (fun x hx => h x (List.mem_cons_of_mem _ hx))
    unfold getlines at h2 ⊢
    simp only [List.flatMap_cons, List.append_assoc, List.singleton_append, h1, h2,
      List.nil_append]

theorem populate_loop_nil (st : populate_state) : populate_loop [] st = st := rfl

theorem populate_loop_cons (l : string) (ls : List string) (st : populate_state) :
    populate_loop (l :: ls) st = populate_loop ls (populate_line st l) := rfl

theorem populate_loop_append (xs ys : List string) (st : populate_state) :
    populate_loop (xs ++ ys) st = populate_loop ys (populate_loop xs st) := by
  simp [populate_loop, List.foldl_append]

/-- Lines other than the delimiter leave the vector alone and extend `ss`. -/
theorem populate_loop_block (block : List string) (h : ∀ l ∈ block, l ≠ percent)
    (st : populate_state) :
    populate_loop block st = { fortunes := st.fortunes, ss := ss_after st.ss block } := by
  induction block generalizing st with
  | nil => rfl
  | cons l ls ih =>
    have hl : l ≠ percent := h l (List.mem_cons_self _ _)
    rw [populate_loop_cons, ih (fun x hx => h x (List.mem_cons_of_mem _ hx))]
    simp [populate_line, hl, ss_after]

theorem populate_line_percent (st : populate_state) :
    populate_line st percent = { fortunes := st.fortunes ++ [st.ss], ss := [] } := by
  simp [populate_line]

theorem spec_join_cons (l : string) (ls : List string) :
    spec_join (l :: ls) = l ++ ls.flatMap (fun x => '\n' :: x) := by
  simp [spec_join, intercalate_cons_eq]

theorem ss_after_nonempty (ss : string) (hss : ss ≠ []) (block : List string) :
    ss_after ss block = ss ++ block.flatMap (fun x => '\n' :: x) := by
  induction block generalizing ss with
  | nil => simp [ss_after]
  | cons l ls ih =>
    have h1 : ss_after ss (l :: ls) = ss_after (ss ++ '\n' :: l) ls := by
      simp [ss_after, hss]
    rw [h1, ih _ (by simp)]
    simp

theorem ss_after_eq_block_text (block : List string) : ss_after [] block = block_text block := by
  induction block with
  | nil => simp [ss_after, block_text, spec_join, List.intercalate]
  | cons l ls ih =>
    by_cases hl : l = []
    · subst hl
      have : ss_after [] ([] :: ls) = ss_after [] ls := by simp [ss_after]
      rw [this, ih]
      simp [block_text]
    · have h1 : ss_after [] (l :: ls) = ss_after l ls := by simp [ss_after]
      rw [h1, ss_after_nonempty l hl]
      have he : l.isEmpty = false := by cases l <;> simp_all
      have : (l :: ls).dropWhile (fun l => l.isEmpty) = l :: ls := by
        simp [List.dropWhile, he]
      simp [block_text, this, spec_join_cons]

theorem populate_loop_splitOn (lines cur : List string) (F : stringvector_t) :
    (populate_loop lines { fortunes := F, ss := ss_after [] cur }).fortunes
      = F ++ (((lines.splitOn percent).modifyHead (fun b => cur ++ b)).dropLast).map
          (ss_after []) := by
  induction lines generalizing cur F with
  | nil => simp [populate_loop, List.splitOn, List.modifyHead]
  | cons l ls ih =>
    obtain ⟨a, t, hX⟩ : ∃ a t, ls.splitOn percent = a :: t := by
      have hne : ls.splitOn percent ≠ [] := List.splitOnP_ne_nil _ _
      cases h : ls.splitOn percent with
      | nil => exact absurd h hne
      | cons a t => exact ⟨a, t, rfl⟩
    rw [populate_loop_cons]
    by_cases hl : l = percent
    · subst hl
      rw [populate_line_percent]
      have h0 := ih [] (F ++ [ss_after [] cur])
      have hnil : ss_after [] ([] : List string) = [] := rfl
      rw [hnil] at h0
      rw [h0, hX]
      have hs : (percent :: ls).splitOn percent = [] :: a :: t := by
        rw [← hX]; simp [List.splitOn, List.splitOnP_cons]
      rw [hs]
      simp [List.modifyHead]
    · have hstep : populate_line { fortunes := F, ss := ss_after [] cur } l
          = { fortunes := F, ss := ss_after [] (cur ++ [l]) } := by
        simp [populate_line, hl, ss_after]
      rw [hstep, ih, hX]
      have hs : (l :: ls).splitOn percent = (l :: a) :: t := by
        have : List.splitOnP (fun x => x == percent) ls = a :: t := hX
        simp [List.splitOn, List.splitOnP_cons, hl, this, List.modifyHead]
      rw [hs]
      simp [List.modifyHead]

/-- The store after loading: the defaults, then one entry per terminated block. -/
theorem loaded_eq (lines : List string) :
    loaded lines = fortunes ++ (spec_blocks lines).map block_text := by
  have h := populate_loop_splitOn lines [] fortunes
  have hnil : ss_after [] ([] : List string) = [] := rfl
  rw [hnil] at h
  have hm : (lines.splitOn percent).modifyHead (fun b => [] ++ b) = lines.splitOn percent := by
    cases lines.splitOn percent <;> simp [List.modifyHead]
  rw [hm] at h
  unfold loaded spec_blocks
  rw [h]
  congr 1
  exact List.map_congr_left (fun b _ => ss_after_eq_block_text b)

theorem populate_fortunes_some (content : List Char) :
    populate_fortunes (some content) fortunes = loaded (getlines content) := rfl

theorem loaded_append_block (L T : List string) (hT : ∀ l ∈ T, l ≠ percent) :
    loaded (L ++ T) = loaded L := by
  unfold loaded
  rw [populate_loop_append, populate_loop_block T hT]

theorem ss_empty_after_delimiter (L : List string) (F : stringvector_t)
    (hL : L = [] ∨ L.getLast? = some percent) :
    (populate_loop L { fortunes := F, ss := [] }).ss = [] := by
  rcases hL with h | h
  · subst h; rfl
  · obtain ⟨ys, rfl⟩ := List.getLast?_eq_some_iff.mp h
    rw [populate_loop_append, populate_loop_cons, populate_line_percent, populate_loop_nil]

/-! ## Lemmas: byte frame and publisher loop -/

theorem shuffle_eq_rotate (d : bytedeque_t) : shuffle d = d.rotate 1 := by
  cases d with
  | nil => rfl
  | cons x xs => simp [shuffle, List.rotate_cons_succ]

theorem iterate_shuffle (k : Nat) (d : bytedeque_t) : shuffle^[k] d = d.rotate k := by
  induction k generalizing d with
  | zero => simp
  | succ k ih => rw [Function.iterate_succ_apply, ih, shuffle_eq_rotate, List.rotate_rotate, Nat.add_comm]

theorem iterate_shuffle_get (frame : bytedeque_t) (hlen : frame.length = 256) (k i : Nat)
    (hi : i < 256) : (shuffle^[k] frame)[i]? = frame[(i + k) % 256]? := by
  rw [iterate_shuffle, List.getElem?_rotate (by omega), hlen]

/-- The frame held by `my_data` at the start of iteration `k`. -/
theorem iterate_shuffle_initial (k : Nat) :
    shuffle^[k] initial_data = (List.range 256).map (fun i => (i + k) % 256) := by
  apply List.ext_getElem?
  intro i
  by_cases hi : i < 256
  · have h := iterate_shuffle_get initial_data (by simp [initial_data]) k i hi
    rw [h]
    have h2 : (i + k) % 256 < 256 := Nat.mod_lt _ (by norm_num)
    simp [initial_data, hi, h2]
  · have h1 : (shuffle^[k] initial_data).length ≤ i := by
      rw [iterate_shuffle, List.length_rotate]; simp [initial_data]; omega
    rw [List.getElem?_eq_none h1, List.getElem?_eq_none (by simp; omega)]

theorem publisher_loop_run (shutdown_requested : Nat → Bool) (rand : Nat → Nat)
    (store : stringvector_t) (n : Nat) (hn : n < 2 ^ 32)
    (hs : ∀ t, shutdown_requested t = false) (m : Nat) :
    ∀ (k : Nat) (W : List written_sample) (w : List Nat), k + m = n → w.length = 256 →
      ∃ w1, publisher_loop shutdown_requested rand store n hn
          { samples_written := k, my_data := shuffle^[k] initial_data, wire_data := w,
            writes := W, iteration := k }
        = { samples_written := n, my_data := shuffle^[n] initial_data, wire_data := w1,
            writes := W ++ (List.range' k m).flatMap (iteration_writes rand store),
            iteration := n } := by
  induction m with
  | zero =>
    intro k W w hk _
    have hkn : k = n := by omega
    subst hkn
    refine ⟨w, ?_⟩
    rw [publisher_loop]
    simp
  | succ m ih =>
    intro k W w hk hw
    have hlt : k < n := by omega
    have hlen : (shuffle^[k] initial_data).length = 256 := by
      rw [iterate_shuffle_initial]; simp
    have hcopy : copy (shuffle^[k] initial_data) w = shuffle^[k] initial_data := by
      simp [copy, hlen, hw]
    have hmod : (k + 1) % 2 ^ 32 = k + 1 := Nat.mod_eq_of_lt (by omega)
    obtain ⟨w1, h1⟩ := ih (k + 1)
      (W ++ [written_sample.string_sample (store.getD (rand k % store.length) []),
             written_sample.bytes_sample (shuffle^[k] initial_data)])
      (shuffle^[k] initial_data) (by omega) hlen
    refine ⟨w1, ?_⟩
    rw [publisher_loop]
    simp only [hs, hlt, and_self, dite_true, hcopy, hmod]
    rw [← Function.iterate_succ_apply' shuffle k initial_data, h1]
    simp [List.range'_succ, iteration_writes, iterate_shuffle_initial]


theorem iteration_writes_length (rand : Nat → Nat) (store : stringvector_t) (n : Nat) :
    ((List.range n).flatMap (iteration_writes rand store)).length = 2 * n := by
  induction n with
  | zero => simp
  | succ n ih =>
    rw [List.range_succ, List.flatMap_append, List.length_append, ih]
    simp [iteration_writes]
    omega

theorem iteration_writes_getElem (rand : Nat → Nat) (store : stringvector_t) (n k : Nat)
    (hk : k < n) :
    ((List.range n).flatMap (iteration_writes rand store))[2 * k]?
        = some (written_sample.string_sample (store.getD (rand k % store.length) []))
      ∧ ((List.range n).flatMap (iteration_writes rand store))[2 * k + 1]?
        = some (written_sample.bytes_sample ((List.range 256).map (fun i => (i + k) % 256))) := by
  induction n with
  | zero => omega
  | succ n ih =>
    have hlen := iteration_writes_length rand store n
    rw [List.range_succ, List.flatMap_append]
    by_cases hkn : k < n
    · obtain ⟨h1, h2⟩ := ih hkn
      rw [List.getElem?_append_left (by omega), List.getElem?_append_left (by omega)]
      exact ⟨h1, h2⟩
    · have hkn2 : k = n := by omega
      subst hkn2
      rw [List.getElem?_append_right (by omega), List.getElem?_append_right (by omega), hlen]
      simp [iteration_writes]

theorem run_publisher_application_eq (file : Option (List Char))
    (shutdown_requested : Nat → Bool) (rand : Nat → Nat) (n : Nat) (hn : n < 2 ^ 32)
    (hs : ∀ t, shutdown_requested t = false) :
    ∃ w my, run_publisher_application file shutdown_requested rand n hn
      = { samples_written := n, my_data := my, wire_data := w,
          writes := (List.range n).flatMap
            (iteration_writes rand (populate_fortunes file fortunes)),
          iteration := n } := by
  obtain ⟨w1, h⟩ := publisher_loop_run shutdown_requested rand (populate_fortunes file fortunes)
    n hn hs n 0 [] (List.replicate initial_data.length 0) (by omega)
    (by rw [List.length_replicate, initial_data, List.length_map, List.length_range])
  refine ⟨w1, shuffle^[n] initial_data, ?_⟩
  unfold run_publisher_application
  simp only [Function.iterate_zero, id_eq] at h
  rw [h]
  simp [List.range_eq_range']

/-! ## Lemmas: subscriber -/

theorem increment_lt (c : Nat) : increment c < 2 ^ 32 := Nat.mod_lt _ (by norm_num)

theorem process_string_data_cons {σ : Type} (show_state : σ → string)
    (s : loaned_sample string σ) (rest : List (loaned_sample string σ)) (st : subscriber_state) :
    process_string_data show_state (s :: rest) st
      = process_string_data show_state rest (process_string_sample show_state st s) := rfl

theorem process_byte_data_cons {σ : Type} (show_state : σ → string)
    (s : loaned_sample (List Nat) σ) (rest : List (loaned_sample (List Nat) σ))
    (st : subscriber_state) :
    process_byte_data show_state (s :: rest) st
      = process_byte_data show_state rest (process_byte_sample show_state st s) := rfl

theorem valid_count_cons_valid {α σ : Type} (d : α) (rest : List (loaned_sample α σ)) :
    valid_count (loaned_sample.valid d :: rest) = valid_count rest + 1 := by
  simp [valid_count]

theorem valid_count_cons_invalid {α σ : Type} (s : σ) (rest : List (loaned_sample α σ)) :
    valid_count (loaned_sample.invalid s :: rest : List (loaned_sample α σ)) = valid_count rest := by
  simp [valid_count]

theorem process_string_data_count {σ : Type} (show_state : σ → string)
    (samples : List (loaned_sample string σ)) (st : subscriber_state)
    (hst : st.samples_read < 2 ^ 32) :
    (process_string_data show_state samples st).samples_read
      = (st.samples_read + valid_count samples) % 2 ^ 32 := by
  induction samples generalizing st with
  | nil =>
    have h : (2 : Nat) ^ 32 = 4294967296 := by norm_num
    simp only [process_string_data, valid_count, List.foldl_nil, List.countP_nil, Nat.add_zero]
    omega
  | cons s rest ih =>
    rw [process_string_data_cons]
    cases s with
    | valid d =>
      rw [ih _ (increment_lt _), valid_count_cons_valid]
      simp only [process_string_sample, increment]
      omega
    | invalid i =>
      rw [ih _ (by exact hst), valid_count_cons_invalid]
      rfl

theorem process_byte_data_count {σ : Type} (show_state : σ → string)
    (samples : List (loaned_sample (List Nat) σ)) (st : subscriber_state)
    (hst : st.samples_read < 2 ^ 32) :
    (process_byte_data show_state samples st).samples_read
      = (st.samples_read + valid_count samples) % 2 ^ 32 := by
  induction samples generalizing st with
  | nil =>
    have h : (2 : Nat) ^ 32 = 4294967296 := by norm_num
    simp only [process_byte_data, valid_count, List.foldl_nil, List.countP_nil, Nat.add_zero]
    omega
  | cons s rest ih =>
    rw [process_byte_data_cons]
    cases s with
    | valid d =>
      rw [ih _ (increment_lt _), valid_count_cons_valid]
      simp only [process_byte_sample, increment]
      omega
    | invalid i =>
      rw [ih _ (by exact hst), valid_count_cons_invalid]
      rfl

theorem process_string_data_cout {σ : Type} (show_state : σ → string)
    (samples : List (loaned_sample string σ)) (st : subscriber_state) :
    (process_string_data show_state samples st).cout
      = st.cout ++ samples.flatMap (fun s => string_record show_state s ++ [endl]) := by
  induction samples generalizing st with
  | nil => simp [process_string_data]
  | cons s rest ih =>
    rw [process_string_data_cons, ih]
    cases s <;> simp [process_string_sample, string_record]

theorem write_bytes_false (cout : string) (ws : List Nat) :
    write_bytes false cout ws
      = cout ++ ws.flatMap (fun b => ", ".toList ++ Nat.toDigits 10 b) := by
  induction ws generalizing cout with
  | nil => simp [write_bytes]
  | cons b rest ih => simp [write_bytes, ih]

theorem write_bytes_true (cout : string) (ws : List Nat) :
    write_bytes true cout ws = cout ++ spec_bytes_text ws := by
  cases ws with
  | nil => simp [write_bytes, spec_bytes_text, List.intercalate]
  | cons b rest =>
    simp only [write_bytes, spec_bytes_text, List.map_cons, intercalate_cons_eq, if_true,
      write_bytes_false, List.flatMap_map, List.append_assoc]

theorem process_byte_data_cout {σ : Type} (show_state : σ → string)
    (samples : List (loaned_sample (List Nat) σ)) (st : subscriber_state) :
    (process_byte_data show_state samples st).cout
      = st.cout ++ samples.flatMap (fun s => byte_record show_state s ++ [endl]) := by
  induction samples generalizing st with
  | nil => simp [process_byte_data]
  | cons s rest ih =>
    rw [process_byte_data_cons, ih]
    cases s <;> simp [process_byte_sample, byte_record, write_bytes_true]


theorem digitChar_ne_endl (d : Nat) (hd : d < 10) : Nat.digitChar d ≠ endl := by
  interval_cases d <;> decide

theorem toDigitsCore_no_endl (fuel n : Nat) (ds : List Char) (hds : endl ∉ ds) :
    endl ∉ Nat.toDigitsCore 10 fuel n ds := by
  induction fuel generalizing n ds with
  | zero => simpa [Nat.toDigitsCore] using hds
  | succ fuel ih =>
    have hd : endl ∉ Nat.digitChar (n % 10) :: ds := by
      intro hmem
      rcases List.mem_cons.mp hmem with h | h
      · exact digitChar_ne_endl (n % 10) (Nat.mod_lt _ (by norm_num)) h.symm
      · exact hds h
    simp only [Nat.toDigitsCore]
    split
    · exact hd
    · exact ih _ _ hd

theorem toDigits_no_endl (n : Nat) : endl ∉ Nat.toDigits 10 n :=
  toDigitsCore_no_endl _ _ [] (by simp)

theorem spec_bytes_text_no_endl (ws : List Nat) : endl ∉ spec_bytes_text ws := by
  cases ws with
  | nil => simp [spec_bytes_text, List.intercalate]
  | cons b rest =>
    simp only [spec_bytes_text, List.map_cons, intercalate_cons_eq, List.mem_append,
      List.mem_flatMap, List.mem_map, not_or]
    refine ⟨toDigits_no_endl b, ?_⟩
    rintro ⟨y, ⟨x, _, rfl⟩, hy⟩
    rcases hy with hy | hy
    · revert hy; decide
    · exact toDigits_no_endl x hy

theorem lines_written_append (a b : string) :
    lines_written (a ++ b) = lines_written a + lines_written b := by
  simp [lines_written]

theorem lines_written_records {α : Type} (record : α → string) (items : List α)
    (h : ∀ s ∈ items, endl ∉ record s) :
    lines_written (items.flatMap (fun s => record s ++ [endl])) = items.length := by
  induction items with
  | nil => simp [lines_written]
  | cons s rest ih =>
    have h1 : lines_written (record s) = 0 :=
      List.count_eq_zero.mpr (h s (List.mem_cons_self _ _))
    have h2 := ih (fun x hx => h x (List.mem_cons_of_mem _ hx))
    simp only [List.flatMap_cons, lines_written_append, h1, h2, List.length_cons]
    simp [lines_written]
    omega

theorem byte_record_no_endl {σ : Type} (show_state : σ → string)
    (hshow : ∀ s, endl ∉ show_state s) (sample : loaned_sample (List Nat) σ) :
    endl ∉ byte_record show_state sample := by
  cases sample with
  | valid ws =>
    simp only [byte_record, List.mem_append, not_or]
    exact ⟨⟨by decide, spec_bytes_text_no_endl ws⟩, by decide⟩
  | invalid i =>
    simp only [byte_record, List.mem_append, not_or]
    exact ⟨by decide, hshow i⟩

theorem string_record_no_endl {σ : Type} (show_state : σ → string)
    (hshow : ∀ s, endl ∉ show_state s) (sample : loaned_sample string σ)
    (hdata : ∀ d, sample = loaned_sample.valid d → endl ∉ d) :
    endl ∉ string_record show_state sample := by
  cases sample with
  | valid d =>
    simp only [string_record, List.mem_append, not_or]
    exact ⟨by decide, hdata d rfl⟩
  | invalid i =>
    simp only [string_record, List.mem_append, not_or]
    exact ⟨by decide, hshow i⟩

theorem run_handler_count {σ : Type} (show_state : σ → string) (call : handler_call σ)
    (st : subscriber_state) (hst : st.samples_read < 2 ^ 32) :
    (run_handler show_state st call).samples_read
      = (st.samples_read + call_valid_count call) % 2 ^ 32 := by
  cases call with
  | string_read_cond samples => exact process_string_data_count show_state samples st hst
  | bytes_read_cond samples => exact process_byte_data_count show_state samples st hst

theorem dispatch_count {σ : Type} (show_state : σ → string) (calls : List (handler_call σ))
    (st : subscriber_state) (hst : st.samples_read < 2 ^ 32) :
    (dispatch show_state calls st).samples_read
      = (st.samples_read + dispatch_valid_count calls) % 2 ^ 32 := by
  induction calls generalizing st with
  | nil =>
    have h : (2 : Nat) ^ 32 = 4294967296 := by norm_num
    simp only [dispatch, dispatch_valid_count, List.foldl_nil, List.map_nil, List.sum_nil,
      Nat.add_zero]
    omega
  | cons c rest ih =>
    have h1 := run_handler_count show_state c st hst
    have hlt : (run_handler show_state st c).samples_read < 2 ^ 32 := by
      rw [h1]; exact Nat.mod_lt _ (by norm_num)
    have h2 := ih (run_handler show_state st c) hlt
    have h3 : dispatch show_state (c :: rest) st
        = dispatch show_state rest (run_handler show_state st c) := rfl
    rw [h3, h2, h1]
    simp only [dispatch_valid_count, List.map_cons, List.sum_cons]
    omega

theorem subscriber_loop_run {σ : Type} (show_state : σ → string)
    (shutdown_requested : Nat → Bool) (broker : Nat → List (handler_call σ)) (N b : Nat)
    (hs : ∀ t, shutdown_requested t = false)
    (hv : ∀ t, 1 ≤ dispatch_valid_count (broker t) ∧ dispatch_valid_count (broker t) ≤ b)
    (hb : N + b ≤ 2 ^ 32) (gap : Nat) :
    ∀ (t : Nat) (st : subscriber_state), N - st.samples_read ≤ gap → st.samples_read < N + b →
      ∃ final, (∀ fuel, gap < fuel →
          subscriber_loop show_state shutdown_requested broker N fuel t st = some final)
        ∧ N ≤ final.samples_read ∧ final.samples_read < N + b := by
  induction gap with
  | zero =>
    intro t st hgap hlt
    refine ⟨st, ?_, by omega, hlt⟩
    intro fuel hfuel
    obtain ⟨f, rfl⟩ : ∃ f, fuel = f + 1 := ⟨fuel - 1, by omega⟩
    have : ¬ st.samples_read < N := by omega
    simp [subscriber_loop, this]
  | succ g ih =>
    intro t st hgap hlt
    by_cases hdone : st.samples_read < N
    · have hst : st.samples_read < 2 ^ 32 := by omega
      have hc := dispatch_count show_state (broker t) st hst
      have hvt := hv t
      have hnowrap : (st.samples_read + dispatch_valid_count (broker t)) % 2 ^ 32
          = st.samples_read + dispatch_valid_count (broker t) :=
        Nat.mod_eq_of_lt (by omega)
      rw [hnowrap] at hc
      obtain ⟨final, hrun, hge, hlt2⟩ := ih (t + 1) (dispatch show_state (broker t) st)
        (by omega) (by omega)
      refine ⟨final, ?_, hge, hlt2⟩
      intro fuel hfuel
      obtain ⟨f, rfl⟩ : ∃ f, fuel = f + 1 := ⟨fuel - 1, by omega⟩
      simp only [subscriber_loop, hs, hdone, and_self, if_true]
      exact hrun f (by omega)
    · refine ⟨st, ?_, by omega, hlt⟩
      intro fuel hfuel
      obtain ⟨f, rfl⟩ : ∃ f, fuel = f + 1 := ⟨fuel - 1, by omega⟩
      simp [subscriber_loop, hdone]

/-! ## Claims -/

/-- C1 (as stated, refuted): loading the lines A, %, B, C, % does not yield
exactly the two blocks; the two built-in fortunes stay in front of them. The
same holds for the content "A\n%\nB\n". -/
theorem populate_fortunes_not_only_blocks :
    populate_fortunes (some "A\n%\nB\nC\n%\n".toList) fortunes
        = ["In the land of the blind, the one eyed man is king".toList,
           "Now is the time for all good men to come to the aid of the party".toList,
           "A".toList, "B\nC".toList]
      ∧ populate_fortunes (some "A\n%\nB\nC\n%\n".toList) fortunes
        ≠ ["A".toList, "B\nC".toList]
      ∧ populate_fortunes (some "A\n%\nB\n".toList) fortunes ≠ ["A".toList] := by
  decide

/-- C1 (amended): for every file content, the store after loading is the
initial vector (the two built-in fortunes) followed by one entry per
'%'-terminated block of the file, in file order, and nothing else; the lines
after the last delimiter are dropped. Loading A, %, B, C, % yields the
defaults followed by "A" and "B\nC"; loading "A\n%\nB\n" yields the defaults
followed by "A". -/
theorem populate_fortunes_defaults_then_blocks (content : List Char) :
    populate_fortunes (some content) fortunes
        = fortunes ++ (spec_blocks (getlines content)).map block_text
      ∧ populate_fortunes (some "A\n%\nB\nC\n%\n".toList) fortunes
        = fortunes ++ ["A".toList, "B\nC".toList]
      ∧ populate_fortunes (some "A\n%\nB\n".toList) fortunes = fortunes ++ ["A".toList] := by
  refine ⟨?_, by decide, by decide⟩
  rw [populate_fortunes_some, loaded_eq]

/-- C2 (as stated, refuted): with budget 1, no shutdown and a broker that has a
string sample and a byte frame ready at every dispatch, the loop exits with
`samples_read = 2`, not 1: both handlers run in the first dispatch. -/
theorem subscriber_loop_overshoots :
    (∀ t, 1 ≤ dispatch_valid_count (both_streams_ready t))
      ∧ (run_subscriber_application (fun _ : Unit => []) (fun _ => false)
            both_streams_ready 1 2).map (fun st => st.samples_read) = some 2
      ∧ ∀ fuel final, run_subscriber_application (fun _ : Unit => []) (fun _ => false)
            both_streams_ready 1 fuel = some final → final.samples_read ≠ 1 := by
  refine ⟨fun t => ?_, by decide, ?_⟩
  · unfold both_streams_ready; decide
  intro fuel final h
  rcases fuel with _ | _ | f
  · simp [run_subscriber_application, subscriber_loop] at h
  · simp [run_subscriber_application, subscriber_loop] at h
  · have h2 : (dispatch (fun _ : Unit => []) (both_streams_ready 0)
        { samples_read := 0, cout := "Subscriber ready...".toList ++ [endl] }).samples_read = 2 := by
      decide
    simp only [run_subscriber_application, subscriber_loop, h2] at h
    simp only [Bool.false_eq_true, not_false_eq_true, true_and, Nat.lt_irrefl, if_false,
      Nat.zero_lt_one, if_true, and_self, Nat.reduceLT] at h
    have h3 : final.samples_read = 2 := by rw [← Option.some.inj h]; exact h2
    omega

/-- C2 (amended): for every budget `N`, when shutdown is never requested and
every dispatch delivers at least one and at most `b` valid samples, with
`N + b ≤ 2 ^ 32` so that the counter cannot wrap, the dispatch loop terminates
(any fuel above `N` is enough) and `samples_read` at exit is at least `N` and
below `N + b`; it equals exactly `N` when every dispatch delivers exactly one
valid sample. -/
theorem subscriber_loop_reaches_budget {σ : Type} (show_state : σ → string)
    (shutdown_requested : Nat → Bool) (broker : Nat → List (handler_call σ)) (N b : Nat)
    (hs : ∀ t, shutdown_requested t = false)
    (hv : ∀ t, 1 ≤ dispatch_valid_count (broker t) ∧ dispatch_valid_count (broker t) ≤ b)
    (hb : N + b ≤ 2 ^ 32) :
    ∃ final, (∀ fuel, N < fuel →
        run_subscriber_application show_state shutdown_requested broker N fuel = some final)
      ∧ N ≤ final.samples_read ∧ final.samples_read < N + b
      ∧ ((∀ t, dispatch_valid_count (broker t) = 1) → final.samples_read = N) := by
  have hb1 : 1 ≤ b := le_trans (hv 0).1 (hv 0).2
  obtain ⟨final, hrun, hge, hlt⟩ := subscriber_loop_run show_state shutdown_requested broker N b
    hs hv hb N 0 { samples_read := 0, cout := "Subscriber ready...".toList ++ [endl] }
    (by simp) (by simp; omega)
  refine ⟨final, hrun, hge, hlt, ?_⟩
  intro hone
  obtain ⟨final1, hrun1, hge1, hlt1⟩ := subscriber_loop_run show_state shutdown_requested
    broker N 1 hs (fun t => by rw [hone t]; exact ⟨le_refl _, le_refl _⟩) (by omega) N 0
    { samples_read := 0, cout := "Subscriber ready...".toList ++ [endl] }
    (by simp) (by simp)
  have h1 := hrun (N + 1) (by omega)
  have h2 := hrun1 (N + 1) (by omega)
  unfold run_subscriber_application at h1
  rw [h2] at h1
  have : final1 = final := Option.some.inj h1
  subst this
  omega

/-- Witness for C2: budget 3 with one string sample per dispatch. -/
theorem subscriber_loop_reaches_budget_witness :
    ∃ final, (∀ fuel, 3 < fuel →
        run_subscriber_application (fun _ : Unit => []) (fun _ => false) one_string_ready 3 fuel
          = some final)
      ∧ 3 ≤ final.samples_read ∧ final.samples_read < 3 + 1
      ∧ ((∀ t, dispatch_valid_count (one_string_ready t) = 1) → final.samples_read = 3) :=
  subscriber_loop_reaches_budget (fun _ : Unit => []) (fun _ => false) one_string_ready 3 1
    (fun _ => rfl) (fun _ => ⟨by unfold one_string_ready; decide, by unfold one_string_ready; decide⟩)
    (by norm_num)

/-- C3 (as stated, refuted): from the counter value `2 ^ 32 - 1` a batch with
one valid byte frame leaves the counter at 0, not at the starting value plus
one; and one valid string item whose text is "B\nC" makes the string handler
write two lines, not one. -/
theorem handlers_wrap_and_multiline :
    (process_byte_data (fun _ : Unit => []) [loaned_sample.valid [7]]
        { samples_read := 4294967295, cout := [] }).samples_read = 0
      ∧ (process_byte_data (fun _ : Unit => []) [loaned_sample.valid [7]]
          { samples_read := 4294967295, cout := [] }).samples_read
        ≠ 4294967295 + valid_count ([loaned_sample.valid [7]] : List (loaned_sample (List Nat) Unit))
      ∧ (process_string_data (fun _ : Unit => []) [loaned_sample.valid "B\nC".toList]
          { samples_read := 0, cout := [] }).cout = "SR. Sample data: B\nC\n".toList
      ∧ lines_written (process_string_data (fun _ : Unit => []) [loaned_sample.valid "B\nC".toList]
          { samples_read := 0, cout := [] }).cout = 2 := by
  decide

/-- C3 (amended): for every batch and every starting value of the 32-bit
counter, each of the two handlers leaves the counter equal to the starting
value plus the number of valid items of the batch, reduced modulo `2 ^ 32`
(so equal to that sum whenever it stays below `2 ^ 32`), adds nothing for
lifecycle items, and appends to the output exactly one record per item, each
ended by `endl`, in batch order; the number of lines written equals the number
of items when no string payload and no state descriptor contains a newline.
On an empty batch the counter and the output are unchanged. -/
theorem handlers_count_and_output {σ : Type} (show_state : σ → string)
    (strings : List (loaned_sample string σ)) (frames : List (loaned_sample (List Nat) σ))
    (st : subscriber_state) (hst : st.samples_read < 2 ^ 32) :
    ((process_string_data show_state strings st).samples_read
          = (st.samples_read + valid_count strings) % 2 ^ 32
        ∧ (st.samples_read + valid_count strings < 2 ^ 32 →
            (process_string_data show_state strings st).samples_read
              = st.samples_read + valid_count strings)
        ∧ (process_string_data show_state strings st).cout
            = st.cout ++ strings.flatMap (fun s => string_record show_state s ++ [endl])
        ∧ ((∀ s, endl ∉ show_state s) → (∀ d, loaned_sample.valid d ∈ strings → endl ∉ d) →
            lines_written (process_string_data show_state strings st).cout
              = lines_written st.cout + strings.length))
      ∧ ((process_byte_data show_state frames st).samples_read
          = (st.samples_read + valid_count frames) % 2 ^ 32
        ∧ (st.samples_read + valid_count frames < 2 ^ 32 →
            (process_byte_data show_state frames st).samples_read
              = st.samples_read + valid_count frames)
        ∧ (process_byte_data show_state frames st).cout
            = st.cout ++ frames.flatMap (fun s => byte_record show_state s ++ [endl])
        ∧ ((∀ s, endl ∉ show_state s) →
            lines_written (process_byte_data show_state frames st).cout
              = lines_written st.cout + frames.length))
      ∧ process_string_data show_state [] st = st
      ∧ process_byte_data show_state [] st = st := by
  refine ⟨⟨process_string_data_count show_state strings st hst, ?_,
      process_string_data_cout show_state strings st, ?_⟩,
    ⟨process_byte_data_count show_state frames st hst, ?_,
      process_byte_data_cout show_state frames st, ?_⟩, rfl, rfl⟩
  · intro h
    rw [process_string_data_count show_state strings st hst, Nat.mod_eq_of_lt h]
  · intro hshow hdata
    rw [process_string_data_cout, lines_written_append, lines_written_records]
    intro s hs
    exact string_record_no_endl show_state hshow s (fun d hd => hdata d (hd ▸ hs))
  · intro h
    rw [process_byte_data_count show_state frames st hst, Nat.mod_eq_of_lt h]
  · intro hshow
    rw [process_byte_data_cout, lines_written_append, lines_written_records]
    intro s _
    exact byte_record_no_endl show_state hshow s

/-- Witness for C3: a string batch with a valid item and a lifecycle item,
from the counter value 5. -/
theorem handlers_count_and_output_witness :
    (process_string_data (fun _ : Unit => "ALIVE".toList)
        [loaned_sample.valid "A".toList, loaned_sample.invalid ()]
        { samples_read := 5, cout := [] }).samples_read
      = (5 + valid_count
          ([loaned_sample.valid "A".toList, loaned_sample.invalid ()] :
            List (loaned_sample string Unit))) % 2 ^ 32 :=
  (handlers_count_and_output (fun _ : Unit => "ALIVE".toList)
    [loaned_sample.valid "A".toList, loaned_sample.invalid ()] []
    { samples_read := 5, cout := [] } (by norm_num)).1.1

/-- C4: for every frame of length 256 and every `k`, after `k` rotation steps
the frame still has length 256 and its entry `i` is entry `(i + k) mod 256` of
the original frame, for every `i < 256`. -/
theorem shuffle_iterate_cyclic (frame : bytedeque_t) (hlen : frame.length = 256) (k i : Nat)
    (hi : i < 256) :
    (shuffle^[k] frame).length = 256 ∧ (shuffle^[k] frame)[i]? = frame[(i + k) % 256]? := by
  refine ⟨?_, iterate_shuffle_get frame hlen k i hi⟩
  rw [iterate_shuffle, List.length_rotate, hlen]

/-- Witness for C4: the producer's initial frame, 3 rotations, index 255. -/
theorem shuffle_iterate_cyclic_witness :
    (shuffle^[3] initial_data).length = 256
      ∧ (shuffle^[3] initial_data)[255]? = initial_data[(255 + 3) % 256]? :=
  shuffle_iterate_cyclic initial_data (by simp [initial_data]) 3 255 (by decide)

/-- C5: for every list of file lines `L` that is empty or ends with a "%" line
and every list `T` of lines none of which is "%", loading `L` followed by `T`
yields the same store as loading `L`; the lines of `T` only reach the stream
`ss`, which is discarded. The function is total: no error is signalled. -/
theorem unterminated_trailing_block_dropped (L T : List string)
    (hT : ∀ l ∈ T, l ≠ percent) (hL : L = [] ∨ L.getLast? = some percent) :
    loaded (L ++ T) = loaded L
      ∧ populate_loop (L ++ T) { fortunes := fortunes, ss := [] }
        = { fortunes := loaded L, ss := block_text T } := by
  refine ⟨loaded_append_block L T hT, ?_⟩
  rw [populate_loop_append, populate_loop_block T hT, ss_empty_after_delimiter L fortunes hL,
    ss_after_eq_block_text]
  rfl

/-- Witness for C5: the lines A, % followed by the unterminated line B. -/
theorem unterminated_trailing_block_dropped_witness :
    getlines "A\n%\nB\n".toList = ["A".toList, percent] ++ ["B".toList]
      ∧ getlines "A\n%\n".toList = ["A".toList, percent]
      ∧ loaded (["A".toList, percent] ++ ["B".toList]) = loaded ["A".toList, percent] :=
  ⟨by decide, by decide,
    (unterminated_trailing_block_dropped ["A".toList, percent] ["B".toList]
      (by decide) (by decide)).1⟩

/-- C6 (as stated, refuted): from the counter value `2 ^ 32 - 1` one invocation
of `process_string_data` on a batch with one valid item leaves the counter at
0, which is below its value before the invocation. -/
theorem counter_decreases_on_wrap :
    (process_string_data (fun _ : Unit => []) [loaned_sample.valid "A".toList]
        { samples_read := 4294967295, cout := [] }).samples_read = 0
      ∧ ¬ (4294967295 ≤ (process_string_data (fun _ : Unit => [])
            [loaned_sample.valid "A".toList]
            { samples_read := 4294967295, cout := [] }).samples_read) := by
  decide

/-- C6 (amended): for every starting value of the counter and every finite
sequence of handler invocations (`pre`, then `call`, then `post`) such that
the starting value plus the number of valid items of the whole sequence stays
below `2 ^ 32`, the counter after the invocation `call` is greater than or
equal to its value before that invocation. -/
theorem counter_monotone_without_wrap {σ : Type} (show_state : σ → string)
    (pre post : List (handler_call σ)) (call : handler_call σ) (st : subscriber_state)
    (h : st.samples_read + dispatch_valid_count (pre ++ call :: post) < 2 ^ 32) :
    (dispatch show_state pre st).samples_read
      ≤ (run_handler show_state (dispatch show_state pre st) call).samples_read := by
  have hst : st.samples_read < 2 ^ 32 := by omega
  have hsplit : dispatch_valid_count (pre ++ call :: post)
      = dispatch_valid_count pre + call_valid_count call + dispatch_valid_count post := by
    simp [dispatch_valid_count]; omega
  have h1 := dispatch_count show_state pre st hst
  have hpre : (dispatch show_state pre st).samples_read < 2 ^ 32 := by
    rw [h1]; exact Nat.mod_lt _ (by norm_num)
  have h2 := run_handler_count show_state call _ hpre
  rw [h2, h1]
  have h3 : (st.samples_read + dispatch_valid_count pre) % 2 ^ 32
      = st.samples_read + dispatch_valid_count pre := Nat.mod_eq_of_lt (by omega)
  rw [h3, Nat.mod_eq_of_lt (by omega)]
  omega

/-- Witness for C6: a bytes invocation after a string invocation, from 7. -/
theorem counter_monotone_without_wrap_witness :
    (dispatch (fun _ : Unit => [])
        [handler_call.string_read_cond [loaned_sample.valid "A".toList]]
        { samples_read := 7, cout := [] }).samples_read
      ≤ (run_handler (fun _ : Unit => [])
          (dispatch (fun _ : Unit => [])
            [handler_call.string_read_cond [loaned_sample.valid "A".toList]]
            { samples_read := 7, cout := [] })
          (handler_call.bytes_read_cond [loaned_sample.valid [0, 1]])).samples_read :=
  counter_monotone_without_wrap (fun _ : Unit => [])
    [handler_call.string_read_cond [loaned_sample.valid "A".toList]] []
    (handler_call.bytes_read_cond [loaned_sample.valid [0, 1]])
    { samples_read := 7, cout := [] } (by decide)

/-- C7: whether the fortunes file is absent, unreadable (`none`) or has any
content, the store after `populate_fortunes` is non-empty, and for every
random value `r` the index `r mod size` is below the size, so that
`fortunes[r mod size]` is an element of the store. -/
theorem pick_within_store (file : Option (List Char)) (r : Nat) :
    populate_fortunes file fortunes ≠ []
      ∧ pick_index r (populate_fortunes file fortunes) < (populate_fortunes file fortunes).length
      ∧ ∃ f, (populate_fortunes file fortunes)[pick_index r (populate_fortunes file fortunes)]?
              = some f ∧ f ∈ populate_fortunes file fortunes := by
  have hne : populate_fortunes file fortunes ≠ [] := by
    cases file with
    | none => simp [populate_fortunes, fortunes]
    | some content => rw [populate_fortunes_some, loaded_eq]; simp [fortunes]
  have hlt : pick_index r (populate_fortunes file fortunes)
      < (populate_fortunes file fortunes).length :=
    Nat.mod_lt _ (List.length_pos.mpr hne)
  refine ⟨hne, hlt, _, List.getElem?_eq_getElem hlt, List.getElem_mem _⟩

/-- C9: for every sample budget `n` (an `unsigned int`), when shutdown is never
requested the main loop of `run_publisher_application` performs exactly `n`
iterations and leaves `samples_written = n`; iteration `k` (0-based) publishes
one string sample and then one byte frame, and that frame has exactly 256
values with `value[i] = (i + k) mod 256` for every `i < 256`. In all `2 * n`
samples are written. -/
theorem publisher_loop_writes (file : Option (List Char)) (shutdown_requested : Nat → Bool)
    (rand : Nat → Nat) (n : Nat) (hn : n < 2 ^ 32) (hs : ∀ t, shutdown_requested t = false) :
    (run_publisher_application file shutdown_requested rand n hn).iteration = n
      ∧ (run_publisher_application file shutdown_requested rand n hn).samples_written = n
      ∧ (run_publisher_application file shutdown_requested rand n hn).writes.length = 2 * n
      ∧ ∀ k, k < n → ∃ fortune frame,
          (run_publisher_application file shutdown_requested rand n hn).writes[2 * k]?
            = some (written_sample.string_sample fortune)
          ∧ (run_publisher_application file shutdown_requested rand n hn).writes[2 * k + 1]?
            = some (written_sample.bytes_sample frame)
          ∧ frame.length = 256 ∧ ∀ i, i < 256 → frame[i]? = some ((i + k) % 256) := by
  obtain ⟨w, my, h⟩ := run_publisher_application_eq file shutdown_requested rand n hn hs
  rw [h]
  refine ⟨rfl, rfl, iteration_writes_length _ _ n, ?_⟩
  intro k hk
  obtain ⟨h1, h2⟩ := iteration_writes_getElem rand (populate_fortunes file fortunes) n k hk
  refine ⟨_, _, h1, h2, by simp, ?_⟩
  intro i hi
  simp [hi]

/-- Witness for C9: budget 3 without a fortunes file gives 3 iterations and 6
samples, 3 strings and 3 byte frames. -/
theorem publisher_loop_writes_witness :
    (run_publisher_application none (fun _ => false) (fun _ => 0) 3 (by norm_num)).iteration = 3
      ∧ (run_publisher_application none (fun _ => false) (fun _ => 0) 3
          (by norm_num)).writes.length = 2 * 3 :=
  ⟨(publisher_loop_writes none (fun _ => false) (fun _ => 0) 3 (by norm_num) (fun _ => rfl)).1,
   (publisher_loop_writes none (fun _ => false) (fun _ => 0) 3 (by norm_num)
      (fun _ => rfl)).2.2.1⟩

/-- C10 (as stated, refuted): for the block whose lines are the empty line and
"A", the entry appended is "A", not "\nA": no separator is written while the
accumulated text is empty. -/
theorem leading_empty_line_not_joined :
    getlines "\nA\n%\n".toList = [[], "A".toList, percent]
      ∧ populate_fortunes (some "\nA\n%\n".toList) fortunes = fortunes ++ ["A".toList]
      ∧ spec_join [[], "A".toList] = "\nA".toList
      ∧ populate_fortunes (some "\nA\n%\n".toList) fortunes
        ≠ fortunes ++ [spec_join [[], "A".toList]] := by
  decide

/-- C10 (amended): for every '%'-terminated block of a fortunes file whose
lines are `l1, ..., lm` (`m ≥ 0`, none of them "%"), the entry that
`populate_fortunes` appends for that block is the join, with single newline
separators and no trailing newline, of the block's lines from its first
non-empty line on; when the block has no line or its first line is non-empty
this is `l1 + "\n" + l2 + ... + "\n" + lm`. -/
theorem block_entry_joined (pre block : List string)
    (hpre : pre = [] ∨ pre.getLast? = some percent) (hb : ∀ l ∈ block, l ≠ percent) :
    loaded (pre ++ block ++ [percent])
        = loaded pre ++ [spec_join (block.dropWhile (fun l => l.isEmpty))]
      ∧ (block.head? ≠ some [] →
          loaded (pre ++ block ++ [percent]) = loaded pre ++ [spec_join block]) := by
  have hmain : loaded (pre ++ block ++ [percent]) = loaded pre ++ [block_text block] := by
    unfold loaded
    rw [populate_loop_append, populate_loop_append, populate_loop_block block hb,
      populate_loop_cons, populate_loop_nil, populate_line_percent]
    have := ss_empty_after_delimiter pre fortunes hpre
    simp only [this, ss_after_eq_block_text]
  refine ⟨hmain, fun hh => ?_⟩
  rw [hmain]
  cases block with
  | nil => rfl
  | cons l ls =>
    have hl : l ≠ [] := by simpa using hh
    have he : l.isEmpty = false := by cases l <;> simp_all
    simp [block_text, List.dropWhile, he]

/-- Witness for C10: the block B, C after the block A. -/
theorem block_entry_joined_witness :
    loaded (["A".toList, percent] ++ ["B".toList, "C".toList] ++ [percent])
      = loaded ["A".toList, percent] ++ [spec_join ["B".toList, "C".toList]] :=
  (block_entry_joined ["A".toList, percent] ["B".toList, "C".toList]
    (by decide) (by decide)).2 (by decide)

end BuiltinTypes
